import Mathlib

/-!
Verification of the Mac OS Notes SQLite plugin
(`plaso/parsers/sqlite_plugins/mac_notes.py`).

The development embeds the two functions of `MacNotesPlugin` that transform
data: `_GetNoteText` (markup sanitization) and `ParseZHTMLSTRINGRow`
(row-to-events transformation).  External collaborators that are not part of
the source file (the lenient markup parser of BeautifulSoup, the dfdatetime
`CocoaTime` class, the `plaso.lib.definitions` constants and the event
containers) are modelled from the specification's contracts, as noted on each
such definition.  Strings are modelled as `List Char`, SQL values with
value-or-absent semantics as `Option`, timestamps as rationals (seconds,
sub-second precision preserved), and raised Python exceptions as
`Except.error`.
-/

/-- Python exceptions that the embedded code can raise. -/
inductive PyErr where
  | typeError
  | attributeError
deriving DecidableEq

/-! ## The tag-stripping regular expression

`_GetNoteText` runs
`re.sub(r'(<\/?(div|body|span|b|table|tr|td|tbody|p).*>\n?)', '', body)`.
Python `re.sub` scans left to right, replaces each leftmost non-overlapping
match by the empty string, and resumes after the match.  `.` does not match a
newline, `.*` is greedy (it reaches the last `>` before the next newline), the
alternation matches an element name as a bare prefix (no word boundary), and
the trailing `\n?` greedily consumes one following newline. -/

/-- The alternation of the regular expression, in source order. -/
def tagNames : List String :=
  ["div", "body", "span", "b", "table", "tr", "td", "tbody", "p"]

/-- Does some alternative of the regular expression match as a prefix here? -/
def hasAllowedName (cs : List Char) : Bool :=
  tagNames.any (fun w => w.data.isPrefixOf cs)

/-- Greedy `.*>`: drop characters up to and including the last `>` that occurs
before the next newline; `none` when no `>` occurs before the newline (or the
end), in which case the whole candidate match fails. -/
def dropThroughLastGt : List Char → Option (List Char)
  | [] => none
  | c :: rest =>
    if c = '\n' then none
    else if c = '>' then some ((dropThroughLastGt rest).getD rest)
    else dropThroughLastGt rest

/-- Greedy `\n?`: consume one newline when it is there. -/
def dropOptNewline : List Char → List Char
  | [] => []
  | c :: r => if c = '\n' then r else c :: r

/-- Optional `\/?`: the element-name alternation is checked after an optional
slash (names start with letters, so a leading slash is never part of a name). -/
def afterSlashOf : List Char → List Char
  | [] => []
  | c :: r => if c = '/' then r else c :: r

/-- Try to match the regular expression at the current position; on success
return the remainder of the input after the whole match. -/
def tryMatch : List Char → Option (List Char)
  | [] => none
  | c :: rest =>
    if c = '<' then
      if hasAllowedName (afterSlashOf rest) then
        match dropThroughLastGt rest with
        | some rem => some (dropOptNewline rem)
        | none => none
      else none
    else none

/-- The `re.sub` scan, fuelled so that the recursion is structural; the fuel
is always at least the length of the remaining input, so the `0` case is
never reached from `reSub`. -/
def reSubGo : Nat → List Char → List Char
  | _, [] => []
  | 0, cs => cs
  | f + 1, c :: cs =>
    match tryMatch (c :: cs) with
    | some rest => reSubGo f rest
    | none => c :: reSubGo f cs

/-- `re.sub(pattern, '', ·)` over a character list. -/
def reSub (cs : List Char) : List Char :=
  reSubGo cs.length cs

/-- `re.sub(pattern, '', ·)` over a string. -/
def reSubStr (s : String) : String :=
  ⟨reSub s.data⟩

/-! ## The parse tree of the markup

Modelled from the spec: the lenient third-party markup parser
(`BeautifulSoup(zhtmlstring, features='html.parser')`) is an external
collaborator specified only by its contract — a tolerant parse tree with a
retrievable body element and a stable indented serialization.  A `text` node
is character data, an `elem` node is an element with its raw rendered
attribute text (empty, or starting with a space) and its children, and a
`void` node is an element the serializer renders self-closing, `<name .../>`.
The parser never fails: every input string corresponds to some forest, the
empty string to the empty forest. -/

mutual
inductive HtmlNode where
  | text (s : String)
  | void (name attrs : String)
  | elem (name attrs : String) (children : HtmlForest)
inductive HtmlForest where
  | nil
  | cons (head : HtmlNode) (tail : HtmlForest)
end

mutual
/-- Modelled from the spec: `soup.body` — the first element named `body` in
document order, or `None` when there is none. -/
def findBodyNode : HtmlNode → Option HtmlNode
  | .text _ => none
  | .void n a => if n = "body" then some (.void n a) else none
  | .elem n a ks => if n = "body" then some (.elem n a ks) else findBodyForest ks
/-- Body lookup over a sequence of sibling nodes. -/
def findBodyForest : HtmlForest → Option HtmlNode
  | .nil => none
  | .cons h t =>
    match findBodyNode h with
    | some b => some b
    | none => findBodyForest t
end

/-! ## The serialization (`prettify`) -/

/-- One line of the serialized output: a tag line
`indent ++ "<" ++ (optional "/") ++ name ++ attrs ++ ">"` or a text line. -/
inductive PLine where
  | tagL (indent : Nat) (slash : Bool) (name attrs : List Char)
  | textL (indent : Nat) (s : List Char)

/-- Indentation: one space per nesting level. -/
def spacesList : Nat → List Char
  | 0 => []
  | n + 1 => ' ' :: spacesList n

/-- Render one line, always terminated by a newline. -/
def renderLine : PLine → List Char
  | .tagL i sl n a =>
    spacesList i ++ '<' :: ((if sl then ['/'] else []) ++ (n ++ (a ++ ['>', '\n'])))
  | .textL i s => spacesList i ++ (s ++ ['\n'])

/-- Render a list of lines. -/
def renderLines : List PLine → List Char
  | [] => []
  | l :: ls => renderLine l ++ renderLines ls

/-- Entity escaping applied by the serializer to character data. -/
def escapeChar (c : Char) : List Char :=
  if c = '&' then "&amp;".data
  else if c = '<' then "&lt;".data
  else if c = '>' then "&gt;".data
  else [c]

/-- Entity escaping over a character list. -/
def escapeHtml (cs : List Char) : List Char :=
  (cs.map escapeChar).flatten

/-- Is this character whitespace for the serializer's stripping of character
data? -/
def isWs (c : Char) : Bool :=
  c = ' ' || c = '\t' || c = '\n' || c = '\r'

/-- Strip leading and trailing whitespace. -/
def trimChars (cs : List Char) : List Char :=
  ((cs.dropWhile isWs).reverse.dropWhile isWs).reverse

mutual
/-- Modelled from the spec: the stable indented serialization
(`prettify`) of the external parser — every tag and every
whitespace-stripped, entity-escaped piece of character data on its own line,
indented one space per nesting level; character data that strips to nothing
is omitted. -/
def prettyNode : HtmlNode → Nat → List PLine
  | .text s, d =>
    let t := trimChars s.data
    if t.isEmpty then [] else [.textL d (escapeHtml t)]
  | .void n a, d => [.tagL d false n.data (a.data ++ ['/'])]
  | .elem n a ks, d =>
    .tagL d false n.data a.data :: (prettyForest ks (d + 1) ++ [.tagL d true n.data []])
/-- Serialization of a sequence of sibling nodes. -/
def prettyForest : HtmlForest → Nat → List PLine
  | .nil, _ => []
  | .cons h t, d => prettyNode h d ++ prettyForest t d
end

/-- Shallow embedding of `MacNotesPlugin._GetNoteText`.  The argument models
the `zhtmlstring` value at the call site: `none` models Python `None`
(`BeautifulSoup(None, ...)` raises `TypeError` when it takes the length of
its markup argument), and `some doc` models a string that the lenient parser
parses into the forest `doc` (the empty string parses to the empty forest).
When the parse tree has no body element, `soup.body` is `None` and
`soup.body.prettify()` raises `AttributeError`; otherwise the body element is
serialized and the tag-stripping substitution is applied. -/
def GetNoteText (zhtmlstring : Option HtmlForest) : Except PyErr String :=
  match zhtmlstring with
  | none => .error .typeError
  | some doc =>
    match findBodyForest doc with
    | none => .error .attributeError
    | some body => .ok (reSubStr ⟨renderLines (prettyNode body 0)⟩)

/-! ## Timestamps, events and the row transformer -/

/-- Seconds from the Unix epoch to the Cocoa reference instant
2001-01-01T00:00:00 UTC.  Modelled from the spec: the platform's absolute
time reference of the Timestamp Normalizer is distinct from the Unix epoch
by this fixed, known offset. -/
def cocoaEpoch : ℚ := 978307200

/-- Modelled from the spec (Timestamp Normalizer): convert a timestamp in
seconds relative to the Cocoa reference epoch into an absolute instant
(seconds from the Unix epoch, sub-second precision preserved) by adding the
fixed epoch offset; total on every rational. -/
def CocoaTimeToInstant (t : ℚ) : ℚ :=
  cocoaEpoch + t

/-- Modelled from the spec: the external `dfdatetime` `CocoaTime` value
object; its constructor accepts `timestamp=None` (an unset time) without
raising. -/
structure CocoaTime where
  timestamp : Option ℚ
deriving DecidableEq

/-- The absolute instant a `CocoaTime` denotes, when it is set. -/
def CocoaTime.instant (t : CocoaTime) : Option ℚ :=
  t.timestamp.map CocoaTimeToInstant

/-- Modelled from the spec: the event-kind enumeration
`{CREATION, LAST_MODIFIED}`.  The constants live in
`plaso.lib.definitions`, which is repository code not under `src/`;
`TIME_DESCRIPTION_CREATION` denotes the CREATION kind and
`TIME_DESCRIPTION_LAST_USED` — the constant `ParseZHTMLSTRINGRow` passes for
the event built from the last-modified timestamp — denotes the spec's
LAST_MODIFIED kind. -/
inductive TimeDescription where
  | creation
  | lastModified
deriving DecidableEq

/-- The constant referenced as `definitions.TIME_DESCRIPTION_CREATION`. -/
def TIME_DESCRIPTION_CREATION : TimeDescription := .creation

/-- The constant referenced as `definitions.TIME_DESCRIPTION_LAST_USED`. -/
def TIME_DESCRIPTION_LAST_USED : TimeDescription := .lastModified

/-- `MacNotesZhtmlstringEventData`: its three attributes are initialized to
`None` by the constructor and assigned by `ParseZHTMLSTRINGRow`.  The markup
string is modelled by its parse tree, as in `GetNoteText`. -/
structure MacNotesZhtmlstringEventData where
  title : Option String := none
  note_text : Option String := none
  zhtmlstring : Option HtmlForest := none

/-- Modelled from the spec: a `plaso.containers.time_events.DateTimeValuesEvent`
as produced by the row transformer — an instant (carried by the date-time
value object) together with its kind. -/
structure DateTimeValuesEvent where
  date_time : CocoaTime
  timestamp_desc : TimeDescription
deriving DecidableEq

/-- One result row of the declared join query, with named-column
value-or-absent access: `title`, the markup column `zhtmlstring` (modelled by
its parse tree, `none` for SQL NULL / Python `None`), the creation timestamp
`timestamp` and `last_modified_time`. -/
structure Row where
  title : Option String := none
  zhtmlstring : Option HtmlForest := none
  timestamp : Option ℚ := none
  last_modified_time : Option ℚ := none

/-- Python truthiness of an optional numeric column value, as tested by
`if modified_timestamp:` — `None` and `0.0` are falsy. -/
def pyTruthy : Option ℚ → Bool
  | none => false
  | some q => decide (q ≠ 0)

/-- Shallow embedding of `MacNotesPlugin.ParseZHTMLSTRINGRow`.  Returns, in
order, the `(event, event_data)` pairs the function pushes to
`parser_mediator.ProduceEventWithEventData`, or the uncaught Python exception
when one is raised.  The source performs no checks: the title and markup
values are read, the markup is sanitized (which can raise), one CREATION
event is always produced (a `None` creation timestamp is passed through to
`CocoaTime`, which accepts it), and a second event with description
`TIME_DESCRIPTION_LAST_USED` is produced only when the last-modified value is
truthy. -/
def ParseZHTMLSTRINGRow (row : Row) :
    Except PyErr (List (DateTimeValuesEvent × MacNotesZhtmlstringEventData)) :=
  let title := row.title
  let zhtmlstring := row.zhtmlstring
  match GetNoteText zhtmlstring with
  | .error e => .error e
  | .ok note_text =>
    let event_data : MacNotesZhtmlstringEventData :=
      { title := title, note_text := some note_text, zhtmlstring := zhtmlstring }
    let create_date_time : CocoaTime := ⟨row.timestamp⟩
    let create_event : DateTimeValuesEvent :=
      ⟨create_date_time, TIME_DESCRIPTION_CREATION⟩
    if pyTruthy row.last_modified_time then
      let modified_date_time : CocoaTime := ⟨row.last_modified_time⟩
      let modified_event : DateTimeValuesEvent :=
        ⟨modified_date_time, TIME_DESCRIPTION_LAST_USED⟩
      .ok [(create_event, event_data), (modified_event, event_data)]
    else
      .ok [(create_event, event_data)]

/-! ## Well-formedness of parse trees and serialized lines -/

/-- Characters an element name is made of: the alternation's names are
lowercase ASCII words. -/
def isNameChar (c : Char) : Bool :=
  decide ('a' ≤ c) && decide (c ≤ 'z')

/-- A character that cannot close or break a tag line: not `<`, `>` or a
newline. -/
def cleanChar (c : Char) : Bool :=
  !(c == '<') && !(c == '>') && !(c == '\n')

/-- Rendered attribute text is empty or starts with a non-name character (a
space in the serializer, a slash for a void element), so an element name
cannot continue into it. -/
def attrsOkL : List Char → Bool
  | [] => true
  | c :: _ => !(isNameChar c)

/-- Well-formedness of the rendered name and attribute text of one tag. -/
def wfTag (n a : List Char) : Bool :=
  !n.isEmpty && n.all isNameChar && a.all cleanChar && attrsOkL a

mutual
/-- Well-formedness of a parse tree: element names are nonempty lowercase
words, rendered attribute text cannot close or break a tag line, and
character data carries no embedded newline. -/
def wfNode : HtmlNode → Bool
  | .text s => s.data.all (fun c => !(c == '\n'))
  | .void n a => wfTag n.data (a.data ++ ['/'])
  | .elem n a ks => wfTag n.data a.data && wfForest ks
/-- Well-formedness of a sequence of sibling nodes. -/
def wfForest : HtmlForest → Bool
  | .nil => true
  | .cons h t => wfNode h && wfForest t
end

/-- Well-formedness of one serialized line. -/
def wfLine : PLine → Bool
  | .tagL _ _ n a => wfTag n a
  | .textL _ s => s.all (fun c => !(c == '<') && !(c == '\n'))

/-- What the substitution leaves of one line: a tag line whose name starts
with an allow-listed name loses everything from its `<` through its newline,
keeping only the indentation; every other line is kept whole. -/
def lineOut : PLine → List Char
  | .tagL i sl n a =>
    if hasAllowedName n then spacesList i else renderLine (.tagL i sl n a)
  | .textL i s => renderLine (.textL i s)

/-- The substitution's output over a list of lines. -/
def linesOut : List PLine → List Char
  | [] => []
  | l :: ls => lineOut l ++ linesOut ls

/-- A line whose substitution output has no angle bracket: a tag line that is
stripped, or a text line without angle brackets. -/
def lineClean : PLine → Bool
  | .tagL _ _ n _ => hasAllowedName n
  | .textL _ s => s.all (fun c => !(c == '<') && !(c == '>'))

/-! ## Observations of a parse tree -/

mutual
/-- All character-data nodes of a tree, in document order. -/
def textsNode : HtmlNode → List String
  | .text s => [s]
  | .void _ _ => []
  | .elem _ _ ks => textsForest ks
/-- All character-data nodes of a sequence of sibling nodes. -/
def textsForest : HtmlForest → List String
  | .nil => []
  | .cons h t => textsNode h ++ textsForest t
end

mutual
/-- All element names of a tree, in document order. -/
def elemNamesNode : HtmlNode → List String
  | .text _ => []
  | .void n _ => [n]
  | .elem n _ ks => n :: elemNamesForest ks
/-- All element names of a sequence of sibling nodes. -/
def elemNamesForest : HtmlForest → List String
  | .nil => []
  | .cons h t => elemNamesNode h ++ elemNamesForest t
end

/-- Character data free of markup metacharacters and newlines; the serializer
reproduces such data unescaped. -/
def plainChar (c : Char) : Bool :=
  !(c == '&') && !(c == '<') && !(c == '>') && !(c == '\n')

/-! ## Concrete inputs used by counterexamples and witnesses -/

/-- A body element containing `<p>Milk</p>` — the markup of the spec's
end-to-end example row. -/
def bodyMilk : HtmlNode :=
  .elem "body" "" (.cons (.elem "p" "" (.cons (.text "Milk") .nil)) .nil)

/-- The parse tree of `<body><p>Milk</p></body>`. -/
def docMilk : HtmlForest := .cons bodyMilk .nil

/-- The parse tree of `<body><br/></body>`: its `br` element is a tag outside
the allow-list whose name begins with the allow-listed name `b`. -/
def docBr : HtmlForest :=
  .cons (.elem "body" "" (.cons (.void "br" "") .nil)) .nil

/-- A body containing an anchor element with an attribute. -/
def bodyAnchor : HtmlNode :=
  .elem "body" " " (.cons (.elem "a" " href=\"x\"" (.cons (.text "link") .nil)) .nil)

/-- The parse tree of a document whose body holds an anchor element. -/
def docAnchor : HtmlForest := .cons bodyAnchor .nil

/-- A body containing only elements whose names begin with allow-listed names
while not being on the allow-list themselves: `br`, `pre`, `track`, `bold`. -/
def bodyMixed : HtmlNode :=
  .elem "body" ""
    (.cons (.void "br" "")
      (.cons (.elem "pre" "" (.cons (.text "x") .nil))
        (.cons (.elem "track" "" .nil)
          (.cons (.elem "bold" "" (.cons (.text "y") .nil)) .nil))))

/-- The parse tree of a document built from `bodyMixed`. -/
def docMixed : HtmlForest := .cons bodyMixed .nil

/-- A row whose markup value is absent (SQL NULL). -/
def rowNullMarkup : Row :=
  { title := some "t", timestamp := some 1 }

/-- A row with markup present and an absent creation timestamp. -/
def rowNoCreation : Row :=
  { zhtmlstring := some docMilk }

/-- A row with markup and both timestamps present, the last-modified one
being the float `0.0`. -/
def rowZeroModified : Row :=
  { zhtmlstring := some docMilk, timestamp := some 0, last_modified_time := some 0 }

/-- A row with both timestamps present, creation `5.0` and last-modified
`0.0`. -/
def rowBothZero : Row :=
  { zhtmlstring := some docMilk, timestamp := some 5, last_modified_time := some 0 }

/-- A row with both timestamps present and non-zero. -/
def rowBoth : Row :=
  { zhtmlstring := some docMilk, timestamp := some 5, last_modified_time := some 3 }

/-- A row with the creation timestamp present and the last-modified one
absent. -/
def rowCreateOnly : Row :=
  { zhtmlstring := some docMilk, timestamp := some 5 }

/-- Two rows sharing the same markup value while differing everywhere else. -/
def rowDupA : Row :=
  { title := some "x", zhtmlstring := some docMilk, timestamp := some 1 }

/-- Second of the two rows sharing the same markup value. -/
def rowDupB : Row :=
  { title := some "y", zhtmlstring := some docMilk, timestamp := some 2,
    last_modified_time := some 3 }

/-! ## Lemmas about the substitution scan -/

theorem dropThroughLastGt_shorter :
    ∀ l r, dropThroughLastGt l = some r → r.length < l.length := by
  intro l
  induction l with
  | nil => intro r h; simp [dropThroughLastGt] at h
  | cons c rest ih =>
    intro r h
    by_cases hnl : c = '\n'
    · simp [dropThroughLastGt, hnl] at h
    · by_cases hgt : c = '>'
      · rcases hrec : dropThroughLastGt rest with _ | r'
        · simp [dropThroughLastGt, hnl, hgt, hrec] at h
          subst h
          simp
        · simp [dropThroughLastGt, hnl, hgt, hrec] at h
          subst h
          exact Nat.lt_trans (ih r' hrec) (by simp)
      · simp only [dropThroughLastGt, if_neg hnl, if_neg hgt] at h
        exact Nat.lt_trans (ih r h) (by simp)

theorem dropOptNewline_le :
    ∀ l : List Char, (dropOptNewline l).length ≤ l.length := by
  intro l
  cases l with
  | nil => simp [dropOptNewline]
  | cons c r =>
    by_cases h : c = '\n'
    · simp [dropOptNewline, h]
    · simp [dropOptNewline, h]

theorem tryMatch_shorter :
    ∀ cs rest, tryMatch cs = some rest → rest.length < cs.length := by
  intro cs rest h
  cases cs with
  | nil => simp [tryMatch] at h
  | cons c t =>
    simp only [tryMatch] at h
    split at h
    · split at h
      · split at h
        · rename_i rem hrem
          have h1 := dropThroughLastGt_shorter t rem hrem
          have h2 := dropOptNewline_le rem
          simp only [Option.some.injEq] at h
          subst h
          simp only [List.length_cons]
          omega
        · exact absurd h (by simp)
      · exact absurd h (by simp)
    · exact absurd h (by simp)

theorem reSubGo_fuel :
    ∀ f g cs, cs.length ≤ f → cs.length ≤ g → reSubGo f cs = reSubGo g cs := by
  intro f
  induction f with
  | zero =>
    intro g cs hf _
    cases cs with
    | nil => cases g <;> simp [reSubGo]
    | cons c t => simp at hf
  | succ f ih =>
    intro g cs hf hg
    cases cs with
    | nil => cases g <;> simp [reSubGo]
    | cons c t =>
      cases g with
      | zero => simp at hg
      | succ g' =>
        simp only [List.length_cons, Nat.succ_le_succ_iff] at hf hg
        show reSubGo (f + 1) (c :: t) = reSubGo (g' + 1) (c :: t)
        cases htm : tryMatch (c :: t) with
        | none => simp only [reSubGo, htm]; rw [ih g' t hf hg]
        | some rest =>
          simp only [reSubGo, htm]
          have hlen := tryMatch_shorter _ _ htm
          simp only [List.length_cons] at hlen
          exact ih g' rest (by omega) (by omega)

theorem reSub_cons_none (c : Char) (cs : List Char) (h : tryMatch (c :: cs) = none) :
    reSub (c :: cs) = c :: reSub cs := by
  simp only [reSub, List.length_cons, reSubGo, h]

theorem reSub_cons_some (c : Char) (cs rest : List Char)
    (h : tryMatch (c :: cs) = some rest) :
    reSub (c :: cs) = reSub rest := by
  have hlen := tryMatch_shorter _ _ h
  simp only [List.length_cons] at hlen
  simp only [reSub, List.length_cons, reSubGo, h]
  exact reSubGo_fuel cs.length rest.length rest (by omega) le_rfl

theorem tryMatch_ne_lt (c : Char) (cs : List Char) (h : ¬c = '<') :
    tryMatch (c :: cs) = none := by
  simp [tryMatch, h]

theorem reSub_append_no_lt :
    ∀ cs r : List Char, (∀ c ∈ cs, ¬c = '<') → reSub (cs ++ r) = cs ++ reSub r := by
  intro cs
  induction cs with
  | nil => intro r _; simp
  | cons c t ih =>
    intro r h
    have hc : ¬c = '<' := h c (by simp)
    rw [List.cons_append, reSub_cons_none c (t ++ r) (tryMatch_ne_lt c _ hc),
      ih r (fun x hx => h x (by simp [hx])), List.cons_append]

/-! ## Lemmas about the name alternation -/

theorem isPrefixOf_append_right (w : List Char) :
    ∀ l r : List Char, w.isPrefixOf l = true → w.isPrefixOf (l ++ r) = true := by
  induction w with
  | nil => intro l r _; simp [List.isPrefixOf]
  | cons a w' ih =>
    intro l r h
    cases l with
    | nil => simp [List.isPrefixOf] at h
    | cons b l' =>
      simp only [List.isPrefixOf, Bool.and_eq_true, List.cons_append] at h ⊢
      exact ⟨h.1, ih l' r h.2⟩

theorem isPrefixOf_self : ∀ l : List Char, l.isPrefixOf l = true := by
  intro l
  induction l with
  | nil => rfl
  | cons c t ih => simp [List.isPrefixOf, ih]

theorem isPrefixOf_stopper (b : Char) (hb : isNameChar b = false) :
    ∀ w : List Char, w.all isNameChar = true →
      ∀ l r : List Char, w.isPrefixOf (l ++ b :: r) = w.isPrefixOf l := by
  intro w
  induction w with
  | nil => intro _ l r; simp [List.isPrefixOf]
  | cons a w' ih =>
    intro hw l r
    rw [List.all_cons, Bool.and_eq_true] at hw
    cases l with
    | nil =>
      have hab : (a == b) = false := by
        by_cases h : a = b
        · subst h; rw [hw.1] at hb; cases hb
        · simp [h]
      simp [List.isPrefixOf, hab]
    | cons x l' =>
      simp only [List.cons_append, List.isPrefixOf, List.append_eq]
      rw [ih hw.2 l' r]

theorem allTagNames_nameChars : ∀ w ∈ tagNames, w.data.all isNameChar = true := by
  decide

theorem hasAllowedName_stopper (b : Char) (hb : isNameChar b = false)
    (l r : List Char) : hasAllowedName (l ++ b :: r) = hasAllowedName l := by
  unfold hasAllowedName
  have hgen : ∀ ws : List String, (∀ w ∈ ws, w.data.all isNameChar = true) →
      ws.any (fun w => w.data.isPrefixOf (l ++ b :: r)) =
        ws.any (fun w => w.data.isPrefixOf l) := by
    intro ws
    induction ws with
    | nil => intro _; simp
    | cons w ws' ih =>
      intro h
      simp only [List.any_cons]
      rw [isPrefixOf_stopper b hb w.data (h w (by simp)) l r,
        ih (fun x hx => h x (by simp [hx]))]
  exact hgen tagNames allTagNames_nameChars

theorem hasAllowedName_extend (l r : List Char) (h : hasAllowedName l = true) :
    hasAllowedName (l ++ r) = true := by
  unfold hasAllowedName at h ⊢
  rw [List.any_eq_true] at h ⊢
  obtain ⟨w, hw, hpre⟩ := h
  exact ⟨w, hw, isPrefixOf_append_right w.data l r hpre⟩

theorem mem_tagNames_allowed (m : String) (h : m ∈ tagNames) :
    hasAllowedName m.data = true := by
  unfold hasAllowedName
  rw [List.any_eq_true]
  exact ⟨m, h, isPrefixOf_self m.data⟩

/-! ## Character-class facts -/

theorem nameChar_ne (c : Char) (h : isNameChar c = true) :
    ¬c = '<' ∧ ¬c = '>' ∧ ¬c = '\n' ∧ ¬c = '/' := by
  refine ⟨?_, ?_, ?_, ?_⟩ <;> intro he <;> subst he <;> exact absurd h (by decide)

theorem cleanChar_ne (c : Char) (h : cleanChar c = true) :
    ¬c = '<' ∧ ¬c = '>' ∧ ¬c = '\n' := by
  simp only [cleanChar, Bool.and_eq_true, Bool.not_eq_true', beq_eq_false_iff_ne,
    ne_eq] at h
  exact ⟨h.1.1, h.1.2, h.2⟩

/-! ## The scan over one rendered line -/

theorem dropThroughLastGt_clean :
    ∀ cs r : List Char, (∀ c ∈ cs, ¬c = '>' ∧ ¬c = '\n') →
      dropThroughLastGt (cs ++ '>' :: '\n' :: r) = some ('\n' :: r) := by
  intro cs
  induction cs with
  | nil => intro r _; rfl
  | cons c t ih =>
    intro r h
    have hc := h c (by simp)
    simp only [List.cons_append, dropThroughLastGt, if_neg hc.2, if_neg hc.1]
    exact ih r (fun x hx => h x (by simp [hx]))

theorem spacesList_mem : ∀ (i : Nat) (c : Char), c ∈ spacesList i → c = ' ' := by
  intro i
  induction i with
  | zero => intro c h; simp [spacesList] at h
  | succ n ih =>
    intro c h
    rcases (by simpa [spacesList] using h : c = ' ' ∨ c ∈ spacesList n) with h | h
    · exact h
    · exact ih c h

/-! ## Escaping and trimming -/

theorem escapeHtml_cons (c : Char) (cs : List Char) :
    escapeHtml (c :: cs) = escapeChar c ++ escapeHtml cs := by
  simp [escapeHtml]

theorem escapeChar_clean (c : Char) (hc : (c == '\n') = false) :
    (escapeChar c).all (fun x => !(x == '<') && !(x == '>') && !(x == '\n')) = true := by
  by_cases h1 : c = '&'
  · subst h1; decide
  · by_cases h2 : c = '<'
    · subst h2; decide
    · by_cases h3 : c = '>'
      · subst h3; decide
      · simp only [escapeChar, if_neg h1, if_neg h2, if_neg h3, List.all_cons,
          List.all_nil, Bool.and_true, Bool.and_eq_true, Bool.not_eq_true',
          beq_eq_false_iff_ne, ne_eq]
        exact ⟨⟨h2, h3⟩, by simpa using hc⟩

theorem escapeHtml_clean (cs : List Char)
    (h : cs.all (fun c => !(c == '\n')) = true) :
    (escapeHtml cs).all (fun x => !(x == '<') && !(x == '>') && !(x == '\n')) = true := by
  induction cs with
  | nil => decide
  | cons c t ih =>
    rw [List.all_cons, Bool.and_eq_true] at h
    rw [escapeHtml_cons, List.all_append, Bool.and_eq_true]
    exact ⟨escapeChar_clean c (by simpa using h.1), ih h.2⟩

theorem escapeHtml_plain (cs : List Char) (h : cs.all plainChar = true) :
    escapeHtml cs = cs := by
  induction cs with
  | nil => rfl
  | cons c t ih =>
    rw [List.all_cons, Bool.and_eq_true] at h
    have hc := h.1
    simp only [plainChar, Bool.and_eq_true, Bool.not_eq_true',
      beq_eq_false_iff_ne, ne_eq] at hc
    rw [escapeHtml_cons, ih h.2]
    simp [escapeChar, hc.1.1.1, hc.1.1.2, hc.1.2]

theorem mem_of_dropWhile (p : Char → Bool) :
    ∀ (l : List Char) (c : Char), c ∈ l.dropWhile p → c ∈ l := by
  intro l
  induction l with
  | nil => intro c h; simp [List.dropWhile] at h
  | cons x t ih =>
    intro c h
    rw [List.dropWhile_cons] at h
    by_cases hp : p x = true
    · rw [if_pos hp] at h
      exact List.mem_cons_of_mem _ (ih c h)
    · rw [if_neg hp] at h
      exact h

theorem mem_trimChars (cs : List Char) (c : Char) (h : c ∈ trimChars cs) : c ∈ cs := by
  unfold trimChars at h
  rw [List.mem_reverse] at h
  have h2 := mem_of_dropWhile isWs _ c h
  rw [List.mem_reverse] at h2
  exact mem_of_dropWhile isWs _ c h2

theorem all_weaken {p q : Char → Bool} (h : ∀ c, p c = true → q c = true) :
    ∀ l : List Char, l.all p = true → l.all q = true := by
  intro l hl
  rw [List.all_eq_true] at hl ⊢
  exact fun x hx => h x (hl x hx)

theorem reSub_tagLine (i : Nat) (sl : Bool) (n a : List Char)
    (hwf : wfTag n a = true) (r : List Char) :
    reSub (renderLine (.tagL i sl n a) ++ r) = lineOut (.tagL i sl n a) ++ reSub r := by
  have hparts : ((¬n = [] ∧ ∀ x ∈ n, isNameChar x = true) ∧ ∀ x ∈ a, cleanChar x = true) ∧
      attrsOkL a = true := by
    simpa [wfTag, Bool.and_eq_true, Bool.not_eq_true'] using hwf
  obtain ⟨⟨⟨hne, hname⟩, hattr⟩, hhead⟩ := hparts
  have hspaces : ∀ c ∈ spacesList i, ¬c = '<' := by
    intro c hc
    rw [spacesList_mem i c hc]
    decide
  have htail : renderLine (.tagL i sl n a) ++ r =
      spacesList i ++
        '<' :: ((if sl then ['/'] else []) ++ (n ++ (a ++ ('>' :: '\n' :: r)))) := by
    simp [renderLine, List.append_assoc]
  have hslash :
      afterSlashOf ((if sl then ['/'] else []) ++ (n ++ (a ++ ('>' :: '\n' :: r)))) =
        n ++ (a ++ ('>' :: '\n' :: r)) := by
    cases sl with
    | true => simp [afterSlashOf]
    | false =>
      cases hn : n with
      | nil => exact absurd hn hne
      | cons c0 n' =>
        have hc0 : isNameChar c0 = true := hname c0 (by rw [hn]; simp)
        have hns : ¬c0 = '/' := (nameChar_ne c0 hc0).2.2.2
        simp [afterSlashOf, hns]
  have hstop : hasAllowedName (n ++ (a ++ ('>' :: '\n' :: r))) = hasAllowedName n := by
    cases ha : a with
    | nil =>
      simpa using hasAllowedName_stopper '>' (by decide) n ('\n' :: r)
    | cons c0 a' =>
      have hc0 : isNameChar c0 = false := by
        rw [ha] at hhead
        simpa [attrsOkL] using hhead
      simpa [List.cons_append, List.append_assoc] using
        hasAllowedName_stopper c0 hc0 n (a' ++ '>' :: '\n' :: r)
  have hdtlg :
      dropThroughLastGt ((if sl then ['/'] else []) ++ (n ++ (a ++ ('>' :: '\n' :: r)))) =
        some ('\n' :: r) := by
    have hpre : ∀ c ∈ (if sl then ['/'] else []) ++ (n ++ a), ¬c = '>' ∧ ¬c = '\n' := by
      intro c hc
      rcases List.mem_append.mp hc with h | h
      · have hcs : c = '/' := by cases sl <;> simp_all
        subst hcs
        exact ⟨by decide, by decide⟩
      · rcases List.mem_append.mp h with h | h
        · have hcn := hname c h
          exact ⟨(nameChar_ne c hcn).2.1, (nameChar_ne c hcn).2.2.1⟩
        · have hcc := hattr c h
          exact ⟨(cleanChar_ne c hcc).2.1, (cleanChar_ne c hcc).2.2⟩
    have hmain := dropThroughLastGt_clean ((if sl then ['/'] else []) ++ (n ++ a)) r hpre
    simpa [List.append_assoc] using hmain
  by_cases hallow : hasAllowedName n = true
  · have hmatch :
        tryMatch ('<' :: ((if sl then ['/'] else []) ++ (n ++ (a ++ ('>' :: '\n' :: r))))) =
          some r := by
      simp [tryMatch, hslash, hstop, hallow, hdtlg, dropOptNewline]
    calc reSub (renderLine (.tagL i sl n a) ++ r)
        = reSub (spacesList i ++
            '<' :: ((if sl then ['/'] else []) ++ (n ++ (a ++ ('>' :: '\n' :: r))))) := by
          rw [htail]
      _ = spacesList i ++
            reSub ('<' :: ((if sl then ['/'] else []) ++ (n ++ (a ++ ('>' :: '\n' :: r))))) :=
          reSub_append_no_lt _ _ hspaces
      _ = spacesList i ++ reSub r := by rw [reSub_cons_some _ _ _ hmatch]
      _ = lineOut (.tagL i sl n a) ++ reSub r := by simp [lineOut, hallow]
  · have hallow2 : hasAllowedName n = false := Bool.eq_false_iff.mpr hallow
    have hnone :
        tryMatch ('<' :: ((if sl then ['/'] else []) ++ (n ++ (a ++ ('>' :: '\n' :: r))))) =
          none := by
      simp [tryMatch, hslash, hstop, hallow2]
    have hclean2 : ∀ c ∈ (if sl then ['/'] else []) ++ (n ++ (a ++ ['>', '\n'])), ¬c = '<' := by
      intro c hc
      rcases List.mem_append.mp hc with h | h
      · have hcs : c = '/' := by cases sl <;> simp_all
        subst hcs; decide
      · rcases List.mem_append.mp h with h | h
        · exact (nameChar_ne c (hname c h)).1
        · rcases List.mem_append.mp h with h | h
          · exact (cleanChar_ne c (hattr c h)).1
          · rcases (by simpa using h : c = '>' ∨ c = '\n') with h | h <;>
              (subst h; decide)
    have hsplit := reSub_append_no_lt ((if sl then ['/'] else []) ++ (n ++ (a ++ ['>', '\n']))) r hclean2
    rw [show ((if sl then ['/'] else []) ++ (n ++ (a ++ ['>', '\n']))) ++ r =
        (if sl then ['/'] else []) ++ (n ++ (a ++ ('>' :: '\n' :: r))) from by
      simp [List.append_assoc]] at hsplit
    calc reSub (renderLine (.tagL i sl n a) ++ r)
        = reSub (spacesList i ++
            '<' :: ((if sl then ['/'] else []) ++ (n ++ (a ++ ('>' :: '\n' :: r))))) := by
          rw [htail]
      _ = spacesList i ++
            reSub ('<' :: ((if sl then ['/'] else []) ++ (n ++ (a ++ ('>' :: '\n' :: r))))) :=
          reSub_append_no_lt _ _ hspaces
      _ = spacesList i ++
            '<' :: reSub ((if sl then ['/'] else []) ++ (n ++ (a ++ ('>' :: '\n' :: r)))) := by
          rw [reSub_cons_none _ _ hnone]
      _ = spacesList i ++
            '<' :: (((if sl then ['/'] else []) ++ (n ++ (a ++ ['>', '\n']))) ++ reSub r) := by
          rw [hsplit]
      _ = lineOut (.tagL i sl n a) ++ reSub r := by
          simp [lineOut, hallow2, renderLine, List.append_assoc]

theorem reSub_textLine (i : Nat) (s : List Char)
    (hs : s.all (fun c => !(c == '<') && !(c == '\n')) = true) (r : List Char) :
    reSub (renderLine (.textL i s) ++ r) = lineOut (.textL i s) ++ reSub r := by
  have hclean : ∀ c ∈ spacesList i ++ (s ++ ['\n']), ¬c = '<' := by
    intro c hc
    rcases List.mem_append.mp hc with h | h
    · rw [spacesList_mem i c h]; decide
    · rcases List.mem_append.mp h with h | h
      · have hcc := List.all_eq_true.mp hs c h
        simp only [Bool.and_eq_true, Bool.not_eq_true', beq_eq_false_iff_ne, ne_eq] at hcc
        exact hcc.1
      · rcases (by simpa using h : c = '\n') with h
        subst h; decide
  show reSub ((spacesList i ++ (s ++ ['\n'])) ++ r) =
    (spacesList i ++ (s ++ ['\n'])) ++ reSub r
  exact reSub_append_no_lt _ r hclean

theorem reSub_renderLines :
    ∀ ls : List PLine, (∀ l ∈ ls, wfLine l = true) →
      reSub (renderLines ls) = linesOut ls := by
  intro ls
  induction ls with
  | nil => intro _; rfl
  | cons l ls' ih =>
    intro h
    have hl := h l (by simp)
    have hrest : reSub (renderLines ls') = linesOut ls' :=
      ih (fun x hx => h x (by simp [hx]))
    show reSub (renderLine l ++ renderLines ls') = lineOut l ++ linesOut ls'
    cases l with
    | tagL i sl n a =>
      rw [reSub_tagLine i sl n a hl, hrest]
    | textL i s =>
      rw [reSub_textLine i s hl, hrest]

/-! ## The serialization of a well-formed tree -/

theorem wfTag_close (n a : List Char) (h : wfTag n a = true) : wfTag n [] = true := by
  simp only [wfTag, Bool.and_eq_true] at h ⊢
  exact ⟨⟨h.1.1, rfl⟩, rfl⟩

mutual
theorem wf_prettyNode : ∀ (b : HtmlNode), wfNode b = true →
    ∀ (d : Nat), ∀ l ∈ prettyNode b d, wfLine l = true
  | .text s => by
    intro hwf d l hl
    simp only [prettyNode] at hl
    split at hl
    · simp at hl
    · rcases (by simpa using hl : l = PLine.textL d (escapeHtml (trimChars s.data)))
        with h
      subst h
      have hs : s.data.all (fun c => !(c == '\n')) = true := hwf
      have htr : (trimChars s.data).all (fun c => !(c == '\n')) = true := by
        rw [List.all_eq_true] at hs ⊢
        exact fun x hx => hs x (mem_trimChars _ x hx)
      have hesc := escapeHtml_clean _ htr
      show (escapeHtml (trimChars s.data)).all
        (fun c => !(c == '<') && !(c == '\n')) = true
      refine all_weaken (fun c hc => ?_) _ hesc
      simp only [Bool.and_eq_true] at hc ⊢
      exact ⟨hc.1.1, hc.2⟩
  | .void nm aa => by
    intro hwf d l hl
    rcases (by simpa [prettyNode] using hl :
      l = PLine.tagL d false nm.data (aa.data ++ ['/'])) with h
    subst h
    exact hwf
  | .elem nm aa ks => by
    intro hwf d l hl
    have hw : wfTag nm.data aa.data = true ∧ wfForest ks = true := by
      simpa [wfNode, Bool.and_eq_true] using hwf
    simp only [prettyNode, List.mem_cons, List.mem_append, List.mem_singleton, List.not_mem_nil, or_false] at hl
    rcases hl with h | h | h
    · subst h; exact hw.1
    · exact wf_prettyForest ks hw.2 (d + 1) l h
    · subst h; exact wfTag_close nm.data aa.data hw.1
theorem wf_prettyForest : ∀ (ks : HtmlForest), wfForest ks = true →
    ∀ (d : Nat), ∀ l ∈ prettyForest ks d, wfLine l = true
  | .nil => by intro _ d l hl; simp [prettyForest] at hl
  | .cons hd tl => by
    intro hwf d l hl
    have hw : wfNode hd = true ∧ wfForest tl = true := by
      simpa [wfForest, Bool.and_eq_true] using hwf
    rcases List.mem_append.mp (by simpa [prettyForest] using hl) with h | h
    · exact wf_prettyNode hd hw.1 d l h
    · exact wf_prettyForest tl hw.2 d l h
end

mutual
theorem names_prettyNode : ∀ (b : HtmlNode) (d i : Nat) (sl : Bool) (n a : List Char),
    PLine.tagL i sl n a ∈ prettyNode b d → ∃ m ∈ elemNamesNode b, n = m.data
  | .text s => by
    intro d i sl n a h
    simp only [prettyNode] at h
    split at h
    · simp at h
    · simp at h
  | .void nm aa => by
    intro d i sl n a h
    simp only [prettyNode, List.mem_singleton, PLine.tagL.injEq] at h
    exact ⟨nm, by simp [elemNamesNode], h.2.2.1⟩
  | .elem nm aa ks => by
    intro d i sl n a h
    simp only [prettyNode, List.mem_cons, List.mem_append, List.mem_singleton, List.not_mem_nil, or_false] at h
    rcases h with h | h | h
    · simp only [PLine.tagL.injEq] at h
      exact ⟨nm, by simp [elemNamesNode], h.2.2.1⟩
    · obtain ⟨m, hm, hn⟩ := names_prettyForest ks (d + 1) i sl n a h
      exact ⟨m, by simp [elemNamesNode, hm], hn⟩
    · simp only [PLine.tagL.injEq] at h
      exact ⟨nm, by simp [elemNamesNode], h.2.2.1⟩
theorem names_prettyForest : ∀ (ks : HtmlForest) (d i : Nat) (sl : Bool) (n a : List Char),
    PLine.tagL i sl n a ∈ prettyForest ks d → ∃ m ∈ elemNamesForest ks, n = m.data
  | .nil => by intro d i sl n a h; simp [prettyForest] at h
  | .cons hd tl => by
    intro d i sl n a h
    rcases List.mem_append.mp (by simpa [prettyForest] using h) with h | h
    · obtain ⟨m, hm, hn⟩ := names_prettyNode hd d i sl n a h
      exact ⟨m, by simp [elemNamesForest, hm], hn⟩
    · obtain ⟨m, hm, hn⟩ := names_prettyForest tl d i sl n a h
      exact ⟨m, by simp [elemNamesForest, hm], hn⟩
end

mutual
theorem texts_prettyNode : ∀ (b : HtmlNode) (d i : Nat) (s : List Char),
    PLine.textL i s ∈ prettyNode b d →
      ∃ t ∈ textsNode b, s = escapeHtml (trimChars t.data)
  | .text s0 => by
    intro d i s h
    simp only [prettyNode] at h
    split at h
    · simp at h
    · simp only [List.mem_singleton, PLine.textL.injEq] at h
      exact ⟨s0, by simp [textsNode], h.2⟩
  | .void nm aa => by
    intro d i s h
    simp [prettyNode] at h
  | .elem nm aa ks => by
    intro d i s h
    simp only [prettyNode, List.mem_cons, List.mem_append, List.mem_singleton, List.not_mem_nil, or_false] at h
    rcases h with h | h | h
    · simp at h
    · obtain ⟨t, ht, hs⟩ := texts_prettyForest ks (d + 1) i s h
      exact ⟨t, by simp [textsNode, ht], hs⟩
    · simp at h
theorem texts_prettyForest : ∀ (ks : HtmlForest) (d i : Nat) (s : List Char),
    PLine.textL i s ∈ prettyForest ks d →
      ∃ t ∈ textsForest ks, s = escapeHtml (trimChars t.data)
  | .nil => by intro d i s h; simp [prettyForest] at h
  | .cons hd tl => by
    intro d i s h
    rcases List.mem_append.mp (by simpa [prettyForest] using h) with h | h
    · obtain ⟨t, ht, hs⟩ := texts_prettyNode hd d i s h
      exact ⟨t, by simp [textsForest, ht], hs⟩
    · obtain ⟨t, ht, hs⟩ := texts_prettyForest tl d i s h
      exact ⟨t, by simp [textsForest, ht], hs⟩
end

mutual
theorem tagLine_exists : ∀ (b : HtmlNode) (d : Nat) (m : String), m ∈ elemNamesNode b →
    ∃ i a, PLine.tagL i false m.data a ∈ prettyNode b d
  | .text s => by intro d m hm; simp [elemNamesNode] at hm
  | .void nm aa => by
    intro d m hm
    rcases (by simpa [elemNamesNode] using hm : m = nm) with h
    subst h
    exact ⟨d, aa.data ++ ['/'], by simp [prettyNode]⟩
  | .elem nm aa ks => by
    intro d m hm
    rcases (by simpa [elemNamesNode] using hm : m = nm ∨ m ∈ elemNamesForest ks)
      with h | h
    · subst h
      exact ⟨d, aa.data, by simp [prettyNode]⟩
    · obtain ⟨i, a, hmem⟩ := tagLine_exists_forest ks (d + 1) m h
      exact ⟨i, a, by simp [prettyNode, hmem]⟩
theorem tagLine_exists_forest : ∀ (ks : HtmlForest) (d : Nat) (m : String),
    m ∈ elemNamesForest ks → ∃ i a, PLine.tagL i false m.data a ∈ prettyForest ks d
  | .nil => by intro d m hm; simp [elemNamesForest] at hm
  | .cons hd tl => by
    intro d m hm
    rcases List.mem_append.mp (by simpa [elemNamesForest] using hm) with h | h
    · obtain ⟨i, a, hmem⟩ := tagLine_exists hd d m h
      exact ⟨i, a, by simp [prettyForest, hmem]⟩
    · obtain ⟨i, a, hmem⟩ := tagLine_exists_forest tl d m h
      exact ⟨i, a, by simp [prettyForest, hmem]⟩
end

mutual
theorem textLine_exists : ∀ (b : HtmlNode) (d : Nat) (t : String), t ∈ textsNode b →
    trimChars t.data = [] ∨
      ∃ i, PLine.textL i (escapeHtml (trimChars t.data)) ∈ prettyNode b d
  | .text s => by
    intro d t ht
    rcases (by simpa [textsNode] using ht : t = s) with h
    subst h
    by_cases he : (trimChars t.data).isEmpty = true
    · left
      simpa using he
    · right
      exact ⟨d, by simp [prettyNode, he]⟩
  | .void nm aa => by intro d t ht; simp [textsNode] at ht
  | .elem nm aa ks => by
    intro d t ht
    rcases textLine_exists_forest ks (d + 1) t (by simpa [textsNode] using ht)
      with h | ⟨i, hmem⟩
    · exact Or.inl h
    · exact Or.inr ⟨i, by simp [prettyNode, hmem]⟩
theorem textLine_exists_forest : ∀ (ks : HtmlForest) (d : Nat) (t : String),
    t ∈ textsForest ks →
      trimChars t.data = [] ∨
        ∃ i, PLine.textL i (escapeHtml (trimChars t.data)) ∈ prettyForest ks d
  | .nil => by intro d t ht; simp [textsForest] at ht
  | .cons hd tl => by
    intro d t ht
    rcases List.mem_append.mp (by simpa [textsForest] using ht) with h | h
    · rcases textLine_exists hd d t h with h2 | ⟨i, hmem⟩
      · exact Or.inl h2
      · exact Or.inr ⟨i, by simp [prettyForest, hmem]⟩
    · rcases textLine_exists_forest tl d t h with h2 | ⟨i, hmem⟩
      · exact Or.inl h2
      · exact Or.inr ⟨i, by simp [prettyForest, hmem]⟩
end

/-! ## The substitution output over all lines -/

theorem within_extend_left (xs b a : List Char) (h : xs <:+: b) : xs <:+: a ++ b := by
  obtain ⟨s, t, hst⟩ := h
  exact ⟨a ++ s, t, by rw [← hst]; simp [List.append_assoc]⟩

theorem within_trans {a b c : List Char} (h1 : a <:+: b) (h2 : b <:+: c) : a <:+: c := by
  obtain ⟨s1, t1, hst1⟩ := h1
  obtain ⟨s2, t2, hst2⟩ := h2
  exact ⟨s2 ++ s1, t1 ++ t2, by rw [← hst2, ← hst1]; simp [List.append_assoc]⟩

theorem lineOut_within_linesOut (l : PLine) :
    ∀ ls : List PLine, l ∈ ls → lineOut l <:+: linesOut ls := by
  intro ls
  induction ls with
  | nil => intro h; simp at h
  | cons x ls' ih =>
    intro h
    rcases List.mem_cons.mp h with h | h
    · subst h
      exact ⟨[], linesOut ls', by simp [linesOut]⟩
    · exact within_extend_left _ _ (lineOut x) (ih h)

theorem linesOut_clean :
    ∀ ls : List PLine, (∀ l ∈ ls, lineClean l = true) →
      (linesOut ls).all (fun c => !(c == '<') && !(c == '>')) = true := by
  intro ls
  induction ls with
  | nil => intro _; rfl
  | cons l ls' ih =>
    intro h
    show (lineOut l ++ linesOut ls').all _ = true
    rw [List.all_append, Bool.and_eq_true]
    refine ⟨?_, ih (fun x hx => h x (by simp [hx]))⟩
    have hc := h l (by simp)
    cases l with
    | tagL i sl n a =>
      have hall : hasAllowedName n = true := hc
      have hlo : lineOut (PLine.tagL i sl n a) = spacesList i := by
        simp [lineOut, hall]
      rw [hlo, List.all_eq_true]
      intro x hx
      rw [spacesList_mem i x hx]
      decide
    | textL i s =>
      show (spacesList i ++ (s ++ ['\n'])).all _ = true
      rw [List.all_append, Bool.and_eq_true]
      constructor
      · rw [List.all_eq_true]
        intro x hx
        rw [spacesList_mem i x hx]
        decide
      · rw [List.all_append, Bool.and_eq_true]
        exact ⟨hc, by decide⟩

theorem escapeHtml_noAngle (cs : List Char) :
    (escapeHtml cs).all (fun x => !(x == '<') && !(x == '>')) = true := by
  induction cs with
  | nil => rfl
  | cons c t ih =>
    rw [escapeHtml_cons, List.all_append, Bool.and_eq_true]
    refine ⟨?_, ih⟩
    by_cases h1 : c = '&'
    · subst h1; decide
    · by_cases h2 : c = '<'
      · subst h2; decide
      · by_cases h3 : c = '>'
        · subst h3; decide
        · simp only [escapeChar, if_neg h1, if_neg h2, if_neg h3, List.all_cons,
            List.all_nil, Bool.and_true, Bool.and_eq_true, Bool.not_eq_true',
            beq_eq_false_iff_ne, ne_eq]
          exact ⟨h2, h3⟩

theorem GetNoteText_body (doc : HtmlForest) (b : HtmlNode)
    (h : findBodyForest doc = some b) :
    GetNoteText (some doc) = Except.ok (reSubStr ⟨renderLines (prettyNode b 0)⟩) := by
  simp [GetNoteText, h]

/-! ## The claims -/

/-- C1, amended.  The claim said empty/null input sanitizes to the empty
string, a missing body element falls back to the whole input, and the
sanitizer never raises.  In the source, `soup.body` is `None` whenever the
parse tree has no `body` element (so in particular for empty input), and
`None.prettify()` raises `AttributeError`; `BeautifulSoup(None, ...)` raises
`TypeError`.  Amended: `_GetNoteText` raises exactly when its input is null
or its parse tree has no body element, and returns sanitized text otherwise. -/
theorem C1_amended_raises_without_body :
    GetNoteText none = Except.error PyErr.typeError ∧
    (∀ doc : HtmlForest,
      (GetNoteText (some doc) = Except.error PyErr.attributeError ↔
        findBodyForest doc = none)) ∧
    (∀ (doc : HtmlForest) (b : HtmlNode), findBodyForest doc = some b →
      ∃ s, GetNoteText (some doc) = Except.ok s) := by
  refine ⟨rfl, ?_, ?_⟩
  · intro doc
    cases h : findBodyForest doc with
    | none => simp [GetNoteText, h]
    | some b => simp [GetNoteText, h]
  · intro doc b h
    exact ⟨reSubStr ⟨renderLines (prettyNode b 0)⟩, by simp [GetNoteText, h]⟩

/-- C1 counterexample: the empty input (whose parse tree is the empty forest)
makes `_GetNoteText` raise `AttributeError` instead of returning the empty
string, and a null input raises `TypeError`. -/
theorem C1_cex_empty_and_null_raise :
    GetNoteText (some HtmlForest.nil) = Except.error PyErr.attributeError ∧
    GetNoteText none = Except.error PyErr.typeError :=
  ⟨rfl, rfl⟩

/-- C1 witness: on input with a body element the sanitizer returns without
raising. -/
theorem C1_witness : ∃ s, GetNoteText (some docMilk) = Except.ok s :=
  C1_amended_raises_without_body.2.2 docMilk bodyMilk rfl

/-- C6: for markup whose body subtree uses only allow-listed element names
(with well-formed names/attributes and plain character data), the sanitized
output contains no angle-bracket markers at all, and each piece of enclosed
character data (whitespace-trimmed, as the serializer renders it) occurs
verbatim in the output. -/
theorem C6_allowlist_stripping (doc : HtmlForest) (b : HtmlNode)
    (hb : findBodyForest doc = some b) (hwf : wfNode b = true)
    (hnames : (elemNamesNode b).all (fun n => decide (n ∈ tagNames)) = true)
    (htexts : (textsNode b).all (fun t => t.data.all plainChar) = true) :
    ∃ out : String, GetNoteText (some doc) = Except.ok out ∧
      out.data.all (fun c => !(c == '<') && !(c == '>')) = true ∧
      ∀ t ∈ textsNode b, trimChars t.data <:+: out.data := by
  refine ⟨reSubStr ⟨renderLines (prettyNode b 0)⟩, GetNoteText_body doc b hb, ?_, ?_⟩
  all_goals
    have hout : (reSubStr (⟨renderLines (prettyNode b 0)⟩ : String)).data =
        linesOut (prettyNode b 0) := by
      show reSub (renderLines (prettyNode b 0)) = _
      exact reSub_renderLines _ (wf_prettyNode b hwf 0)
  · rw [hout]
    refine linesOut_clean _ (fun l hl => ?_)
    cases l with
    | tagL i sl n a =>
      obtain ⟨m, hm, hn⟩ := names_prettyNode b 0 i sl n a hl
      have hmem : m ∈ tagNames := by
        simpa using List.all_eq_true.mp hnames m hm
      show hasAllowedName n = true
      rw [hn]
      exact mem_tagNames_allowed m hmem
    | textL i s =>
      obtain ⟨t, ht, hs⟩ := texts_prettyNode b 0 i s hl
      show s.all (fun c => !(c == '<') && !(c == '>')) = true
      rw [hs]
      exact escapeHtml_noAngle _
  · intro t ht
    rw [hout]
    rcases textLine_exists b 0 t ht with he | ⟨i, hmem⟩
    · rw [he]
      exact ⟨[], linesOut (prettyNode b 0), by simp⟩
    · have htp : t.data.all plainChar = true := List.all_eq_true.mp htexts t ht
      have htrp : (trimChars t.data).all plainChar = true := by
        rw [List.all_eq_true]
        exact fun x hx => List.all_eq_true.mp htp x (mem_trimChars _ x hx)
      have hesc : escapeHtml (trimChars t.data) = trimChars t.data :=
        escapeHtml_plain _ htrp
      have h1 : trimChars t.data <:+:
          lineOut (PLine.textL i (escapeHtml (trimChars t.data))) := by
        show trimChars t.data <:+:
          spacesList i ++ (escapeHtml (trimChars t.data) ++ ['\n'])
        rw [hesc]
        exact ⟨spacesList i, ['\n'], by simp [List.append_assoc]⟩
      exact within_trans h1 (lineOut_within_linesOut _ _ hmem)

/-- C6 witness: the spec's end-to-end markup example. -/
theorem C6_witness :
    ∃ out : String, GetNoteText (some docMilk) = Except.ok out ∧
      out.data.all (fun c => !(c == '<') && !(c == '>')) = true ∧
      ∀ t ∈ textsNode bodyMilk, trimChars t.data <:+: out.data :=
  C6_allowlist_stripping docMilk bodyMilk rfl (by decide) (by decide) (by decide)

/-- C7, amended.  The claim said every tag outside the allow-list keeps its
markers; in fact the regular expression matches allow-listed names as bare
prefixes, so only a tag whose name has no allow-listed name as an initial
segment (such as an anchor) keeps its markers. -/
theorem C7_amended_unlisted_kept (doc : HtmlForest) (b : HtmlNode) (m : String)
    (hb : findBodyForest doc = some b) (hwf : wfNode b = true)
    (hm : m ∈ elemNamesNode b) (hno : hasAllowedName m.data = false) :
    ∃ out : String, GetNoteText (some doc) = Except.ok out ∧
      ('<' :: m.data) <:+: out.data := by
  refine ⟨reSubStr ⟨renderLines (prettyNode b 0)⟩, GetNoteText_body doc b hb, ?_⟩
  have hout : (reSubStr (⟨renderLines (prettyNode b 0)⟩ : String)).data =
      linesOut (prettyNode b 0) := by
    show reSub (renderLines (prettyNode b 0)) = _
    exact reSub_renderLines _ (wf_prettyNode b hwf 0)
  rw [hout]
  obtain ⟨i, a, hmem⟩ := tagLine_exists b 0 m hm
  have hlo : lineOut (PLine.tagL i false m.data a) =
      spacesList i ++ '<' :: (m.data ++ (a ++ ['>', '\n'])) := by
    simp [lineOut, hno, renderLine]
  have h1 : ('<' :: m.data) <:+: lineOut (PLine.tagL i false m.data a) := by
    rw [hlo]
    exact ⟨spacesList i, a ++ ['>', '\n'], by simp [List.append_assoc]⟩
  exact within_trans h1 (lineOut_within_linesOut _ _ hmem)

/-- C7 counterexample: `br` is outside the allow-list, yet the markup
`<body><br/></body>` sanitizes to `" "` — the `br` markers are stripped
because `b` matches as a prefix. -/
theorem C7_cex_br_stripped :
    ("br" ∈ tagNames → False) ∧ GetNoteText (some docBr) = Except.ok " " :=
  ⟨by decide, rfl⟩

/-- C7 witness: an anchor tag, whose name starts with no allow-listed name,
keeps its opening marker in the sanitized output. -/
theorem C7_witness :
    ∃ out : String, GetNoteText (some docAnchor) = Except.ok out ∧
      ('<' :: "a".data) <:+: out.data :=
  C7_amended_unlisted_kept docAnchor bodyAnchor "a" rfl (by decide) (by decide)
    (by decide)

/-- C10: every tag whose element name merely begins with an allow-listed name
is stripped by the substitution, so a body subtree whose element names all
have an allow-listed initial segment sanitizes to output with no
angle-bracket markers, even when those names are outside the allow-list. -/
theorem C10_initial_segment_stripping (doc : HtmlForest) (b : HtmlNode)
    (hb : findBodyForest doc = some b) (hwf : wfNode b = true)
    (hnames : (elemNamesNode b).all (fun n => hasAllowedName n.data) = true) :
    ∃ out : String, GetNoteText (some doc) = Except.ok out ∧
      out.data.all (fun c => !(c == '<') && !(c == '>')) = true := by
  refine ⟨reSubStr ⟨renderLines (prettyNode b 0)⟩, GetNoteText_body doc b hb, ?_⟩
  have hout : (reSubStr (⟨renderLines (prettyNode b 0)⟩ : String)).data =
      linesOut (prettyNode b 0) := by
    show reSub (renderLines (prettyNode b 0)) = _
    exact reSub_renderLines _ (wf_prettyNode b hwf 0)
  rw [hout]
  refine linesOut_clean _ (fun l hl => ?_)
  cases l with
  | tagL i sl n a =>
    obtain ⟨m, hm, hn⟩ := names_prettyNode b 0 i sl n a hl
    show hasAllowedName n = true
    rw [hn]
    exact List.all_eq_true.mp hnames m hm
  | textL i s =>
    obtain ⟨t, ht, hs⟩ := texts_prettyNode b 0 i s hl
    show s.all (fun c => !(c == '<') && !(c == '>')) = true
    rw [hs]
    exact escapeHtml_noAngle _

/-- C10 witness: `br`, `pre`, `track` and `bold` are all outside the
allow-list, yet a body holding exactly those elements sanitizes to output
without any angle-bracket marker. -/
theorem C10_witness :
    ("br" ∈ tagNames → False) ∧ ("pre" ∈ tagNames → False) ∧
    ("track" ∈ tagNames → False) ∧ ("bold" ∈ tagNames → False) ∧
    ∃ out : String, GetNoteText (some docMixed) = Except.ok out ∧
      out.data.all (fun c => !(c == '<') && !(c == '>')) = true :=
  ⟨by decide, by decide, by decide, by decide,
    C10_initial_segment_stripping docMixed bodyMixed rfl (by decide) (by decide)⟩

/-- C9: timestamp normalization is total over the rationals and exact — the
value `0.0` maps to the Cocoa reference instant, `86400.0` maps to exactly
24 hours later, durations are preserved (so the conversion is exact for
every rational input), and a constructed `CocoaTime` denotes exactly the
shifted instant. -/
theorem C9_epoch_correctness :
    CocoaTimeToInstant 0 = cocoaEpoch ∧
    CocoaTimeToInstant 86400 = cocoaEpoch + 86400 ∧
    (∀ t : ℚ, CocoaTimeToInstant t - CocoaTimeToInstant 0 = t) ∧
    (∀ t : ℚ, CocoaTime.instant ⟨some t⟩ = some (CocoaTimeToInstant t)) := by
  refine ⟨by simp [CocoaTimeToInstant], rfl, ?_, fun t => rfl⟩
  intro t
  show cocoaEpoch + t - (cocoaEpoch + 0) = t
  ring

/-! ## The row transformer -/

theorem ParseRow_ok_shape (row : Row)
    (evs : List (DateTimeValuesEvent × MacNotesZhtmlstringEventData))
    (h : ParseZHTMLSTRINGRow row = Except.ok evs) :
    ∃ nt, GetNoteText row.zhtmlstring = Except.ok nt ∧
      evs = (⟨⟨row.timestamp⟩, TIME_DESCRIPTION_CREATION⟩,
          ⟨row.title, some nt, row.zhtmlstring⟩) ::
        (if pyTruthy row.last_modified_time then
          [(⟨⟨row.last_modified_time⟩, TIME_DESCRIPTION_LAST_USED⟩,
            ⟨row.title, some nt, row.zhtmlstring⟩)]
        else []) := by
  unfold ParseZHTMLSTRINGRow at h
  cases hG : GetNoteText row.zhtmlstring with
  | error e => simp [hG] at h
  | ok nt =>
    simp only [hG] at h
    refine ⟨nt, rfl, ?_⟩
    by_cases hT : pyTruthy row.last_modified_time = true
    · simp only [hT, if_true] at h ⊢
      simp only [Except.ok.injEq] at h
      exact h.symm
    · have hT2 : pyTruthy row.last_modified_time = false := Bool.eq_false_iff.mpr hT
      simp only [hT2, Bool.false_eq_true, if_false] at h ⊢
      simp only [Except.ok.injEq] at h
      exact h.symm

/-- C2, amended.  The claim said a row with an absent markup value or absent
creation timestamp is logged and skipped, producing no events.
`ParseZHTMLSTRINGRow` performs no such check: an absent markup value makes
the sanitizer raise `TypeError` out of the row handler (no logging, no
skip), and an absent creation timestamp still produces a CREATION event
whose date-time value is unset. -/
theorem C2_amended_no_row_skip (row : Row) :
    (row.zhtmlstring = none →
      ParseZHTMLSTRINGRow row = Except.error PyErr.typeError) ∧
    (∀ evs, ParseZHTMLSTRINGRow row = Except.ok evs → row.timestamp = none →
      ∃ ev rest, evs = ev :: rest ∧
        ev.1.timestamp_desc = TIME_DESCRIPTION_CREATION ∧
        ev.1.date_time.timestamp = none) := by
  constructor
  · intro h
    simp [ParseZHTMLSTRINGRow, h, GetNoteText]
  · intro evs hok hts
    obtain ⟨nt, hnt, hevs⟩ := ParseRow_ok_shape row evs hok
    exact ⟨_, _, hevs, rfl, hts⟩

/-- C2 counterexample: a row with markup present and creation timestamp
absent is not skipped — it still produces one CREATION event. -/
theorem C2_cex_absent_creation_not_skipped :
    rowNoCreation.timestamp = none ∧
    (ParseZHTMLSTRINGRow rowNoCreation).toOption.map
        (fun evs => evs.map (fun e => e.1.timestamp_desc)) =
      some [TIME_DESCRIPTION_CREATION] :=
  ⟨rfl, rfl⟩

/-- C2 witness: a null markup value raises out of the row handler, and an
absent creation timestamp still yields a CREATION event with unset time. -/
theorem C2_witness :
    ParseZHTMLSTRINGRow rowNullMarkup = Except.error PyErr.typeError ∧
    ∃ evs, ParseZHTMLSTRINGRow rowNoCreation = Except.ok evs ∧
      ∃ ev rest, evs = ev :: rest ∧
        ev.1.timestamp_desc = TIME_DESCRIPTION_CREATION ∧
        ev.1.date_time.timestamp = none := by
  refine ⟨(C2_amended_no_row_skip rowNullMarkup).1 rfl, ?_⟩
  obtain ⟨evs, hevs⟩ : ∃ evs, ParseZHTMLSTRINGRow rowNoCreation = Except.ok evs :=
    ⟨_, rfl⟩
  exact ⟨evs, hevs, (C2_amended_no_row_skip rowNoCreation).2 evs hevs rfl⟩

/-- C3, amended.  The claim said a LAST_MODIFIED event is produced exactly
when the last-modified value is non-null, zero included.  The source tests
Python truthiness (`if modified_timestamp:`), under which `0.0` is falsy, so
the event is produced exactly when the value is present and non-zero. -/
theorem C3_amended_modified_event_iff_truthy (row : Row)
    (evs : List (DateTimeValuesEvent × MacNotesZhtmlstringEventData))
    (h : ParseZHTMLSTRINGRow row = Except.ok evs) :
    ((∃ e ∈ evs, e.1.timestamp_desc = TIME_DESCRIPTION_LAST_USED) ↔
      pyTruthy row.last_modified_time = true) ∧
    (pyTruthy row.last_modified_time = true ↔
      ∃ q : ℚ, row.last_modified_time = some q ∧ ¬q = 0) := by
  obtain ⟨nt, hnt, hevs⟩ := ParseRow_ok_shape row evs h
  subst hevs
  constructor
  · by_cases hT : pyTruthy row.last_modified_time = true
    · constructor
      · intro _
        exact hT
      · intro _
        refine ⟨(⟨⟨row.last_modified_time⟩, TIME_DESCRIPTION_LAST_USED⟩,
          ⟨row.title, some nt, row.zhtmlstring⟩), ?_, rfl⟩
        simp [hT]
    · have hT2 : pyTruthy row.last_modified_time = false := Bool.eq_false_iff.mpr hT
      constructor
      · rintro ⟨e, he, hd⟩
        rw [hT2] at he
        simp only [Bool.false_eq_true, if_false] at he
        have he2 : e = (⟨⟨row.timestamp⟩, TIME_DESCRIPTION_CREATION⟩,
            ⟨row.title, some nt, row.zhtmlstring⟩) := by simpa using he
        subst he2
        simp [TIME_DESCRIPTION_CREATION, TIME_DESCRIPTION_LAST_USED] at hd
      · intro hc
        exact absurd hc hT
  · rcases hlm : row.last_modified_time with _ | q <;> simp [pyTruthy, hlm]

/-- C3 counterexample: a row whose last-modified value is the present value
`0.0` produces no LAST_MODIFIED event — only the CREATION event. -/
theorem C3_cex_zero_modified_no_event :
    rowZeroModified.last_modified_time = some 0 ∧
    (ParseZHTMLSTRINGRow rowZeroModified).toOption.map
        (fun evs => evs.map (fun e => e.1.timestamp_desc)) =
      some [TIME_DESCRIPTION_CREATION] :=
  ⟨rfl, by decide⟩

/-- C3 witness: with a present non-zero last-modified value the second event
is produced. -/
theorem C3_witness :
    ∃ evs, ParseZHTMLSTRINGRow rowBoth = Except.ok evs ∧
      ∃ e ∈ evs, e.1.timestamp_desc = TIME_DESCRIPTION_LAST_USED := by
  obtain ⟨evs, hevs⟩ : ∃ evs, ParseZHTMLSTRINGRow rowBoth = Except.ok evs := ⟨_, rfl⟩
  refine ⟨evs, hevs, ?_⟩
  exact (C3_amended_modified_event_iff_truthy rowBoth evs hevs).1.mpr (by decide)

/-- C4: every produced event's kind is CREATION or LAST_MODIFIED (the
`TIME_DESCRIPTION_LAST_USED` constant, which the spec's enumeration names
LAST_MODIFIED), and when the second event is produced it is the one derived
from the last-modified timestamp and has that kind. -/
theorem C4_event_kinds (row : Row)
    (evs : List (DateTimeValuesEvent × MacNotesZhtmlstringEventData))
    (h : ParseZHTMLSTRINGRow row = Except.ok evs) :
    (∀ e ∈ evs, e.1.timestamp_desc = TIME_DESCRIPTION_CREATION ∨
      e.1.timestamp_desc = TIME_DESCRIPTION_LAST_USED) ∧
    (pyTruthy row.last_modified_time = true →
      ∃ e ∈ evs, e.1.timestamp_desc = TIME_DESCRIPTION_LAST_USED ∧
        e.1.date_time.timestamp = row.last_modified_time) := by
  obtain ⟨nt, hnt, hevs⟩ := ParseRow_ok_shape row evs h
  subst hevs
  constructor
  · intro e he
    rcases List.mem_cons.mp he with h1 | h1
    · subst h1; left; rfl
    · split at h1
      · have h2 : e = (⟨⟨row.last_modified_time⟩, TIME_DESCRIPTION_LAST_USED⟩,
            ⟨row.title, some nt, row.zhtmlstring⟩) := by simpa using h1
        subst h2; right; rfl
      · simp at h1
  · intro hT
    refine ⟨(⟨⟨row.last_modified_time⟩, TIME_DESCRIPTION_LAST_USED⟩,
      ⟨row.title, some nt, row.zhtmlstring⟩), ?_, rfl, rfl⟩
    simp [hT]

/-- C4 witness: a row with both timestamps present and truthy. -/
theorem C4_witness :
    ∃ evs, ParseZHTMLSTRINGRow rowBoth = Except.ok evs ∧
      (∀ e ∈ evs, e.1.timestamp_desc = TIME_DESCRIPTION_CREATION ∨
        e.1.timestamp_desc = TIME_DESCRIPTION_LAST_USED) ∧
      ∃ e ∈ evs, e.1.timestamp_desc = TIME_DESCRIPTION_LAST_USED ∧
        e.1.date_time.timestamp = rowBoth.last_modified_time := by
  obtain ⟨evs, hevs⟩ : ∃ evs, ParseZHTMLSTRINGRow rowBoth = Except.ok evs := ⟨_, rfl⟩
  have h := C4_event_kinds rowBoth evs hevs
  exact ⟨evs, hevs, h.1, h.2 (by decide)⟩

/-- C5, amended.  The claim's counts hold only when the markup sanitizes
successfully and with "present" last-modified meaning truthy: a row with
creation present and last-modified absent yields exactly the CREATION event;
creation present and last-modified present *and non-zero* yields exactly two
events in order CREATION then LAST_MODIFIED; a present last-modified equal
to `0.0` yields only the CREATION event, and a row whose markup has no body
yields no events at all (the handler raises). -/
theorem C5_amended_event_counts (row : Row)
    (evs : List (DateTimeValuesEvent × MacNotesZhtmlstringEventData)) (t : ℚ)
    (h : ParseZHTMLSTRINGRow row = Except.ok evs) (hts : row.timestamp = some t) :
    (row.last_modified_time = none →
      evs.map (fun e => e.1.timestamp_desc) = [TIME_DESCRIPTION_CREATION]) ∧
    (∀ q : ℚ, row.last_modified_time = some q → ¬q = 0 →
      evs.map (fun e => e.1.timestamp_desc) =
        [TIME_DESCRIPTION_CREATION, TIME_DESCRIPTION_LAST_USED]) := by
  obtain ⟨nt, hnt, hevs⟩ := ParseRow_ok_shape row evs h
  subst hevs
  constructor
  · intro hlm
    have hT : pyTruthy row.last_modified_time = false := by rw [hlm]; rfl
    simp [hT]
  · intro q hq hq0
    have hT : pyTruthy row.last_modified_time = true := by
      rw [hq]
      simp [pyTruthy, hq0]
    simp [hT]

/-- C5 counterexample: both timestamps are present (creation `5.0`,
last-modified `0.0`) yet only one event is produced, not two. -/
theorem C5_cex_both_present_one_event :
    rowBothZero.timestamp = some 5 ∧ rowBothZero.last_modified_time = some 0 ∧
    (ParseZHTMLSTRINGRow rowBothZero).toOption.map (fun evs => evs.length) =
      some 1 :=
  ⟨rfl, rfl, by decide⟩

/-- C5 witness: the two amended counts at concrete rows. -/
theorem C5_witness :
    (∃ evs, ParseZHTMLSTRINGRow rowCreateOnly = Except.ok evs ∧
      evs.map (fun e => e.1.timestamp_desc) = [TIME_DESCRIPTION_CREATION]) ∧
    (∃ evs, ParseZHTMLSTRINGRow rowBoth = Except.ok evs ∧
      evs.map (fun e => e.1.timestamp_desc) =
        [TIME_DESCRIPTION_CREATION, TIME_DESCRIPTION_LAST_USED]) := by
  constructor
  · obtain ⟨evs, hevs⟩ : ∃ evs, ParseZHTMLSTRINGRow rowCreateOnly = Except.ok evs :=
      ⟨_, rfl⟩
    exact ⟨evs, hevs, (C5_amended_event_counts rowCreateOnly evs 5 hevs rfl).1 rfl⟩
  · obtain ⟨evs, hevs⟩ : ∃ evs, ParseZHTMLSTRINGRow rowBoth = Except.ok evs :=
      ⟨_, rfl⟩
    exact ⟨evs, hevs,
      (C5_amended_event_counts rowBoth evs 5 hevs rfl).2 3 rfl (by norm_num)⟩

/-- C8: sanitization is a pure function of the markup value alone — two
successfully processed rows with the same markup value get identical
`note_text`, whatever their other columns are, and every produced record's
`note_text` is exactly the sanitizer's output on that record's own
`zhtmlstring` field. -/
theorem C8_sanitizer_deterministic (r1 r2 : Row)
    (evs1 evs2 : List (DateTimeValuesEvent × MacNotesZhtmlstringEventData))
    (h1 : ParseZHTMLSTRINGRow r1 = Except.ok evs1)
    (h2 : ParseZHTMLSTRINGRow r2 = Except.ok evs2)
    (hz : r1.zhtmlstring = r2.zhtmlstring) :
    (∀ p ∈ evs1, ∀ q ∈ evs2, p.2.note_text = q.2.note_text) ∧
    (∀ p ∈ evs1, p.2.zhtmlstring = r1.zhtmlstring ∧
      p.2.note_text = (GetNoteText p.2.zhtmlstring).toOption) := by
  obtain ⟨nt1, hnt1, hevs1⟩ := ParseRow_ok_shape r1 evs1 h1
  obtain ⟨nt2, hnt2, hevs2⟩ := ParseRow_ok_shape r2 evs2 h2
  have hnt1b := hnt1
  rw [hz] at hnt1b
  rw [hnt1b] at hnt2
  have hnteq : nt1 = nt2 := Except.ok.inj hnt2
  have hdata1 : ∀ p ∈ evs1,
      p.2 = (⟨r1.title, some nt1, r1.zhtmlstring⟩ : MacNotesZhtmlstringEventData) := by
    intro p hp
    rw [hevs1] at hp
    rcases List.mem_cons.mp hp with hh | hh
    · rw [hh]
    · split at hh
      · have h2 := by simpa using hh
        rw [h2]
      · simp at hh
  have hdata2 : ∀ p ∈ evs2,
      p.2 = (⟨r2.title, some nt2, r2.zhtmlstring⟩ : MacNotesZhtmlstringEventData) := by
    intro p hp
    rw [hevs2] at hp
    rcases List.mem_cons.mp hp with hh | hh
    · rw [hh]
    · split at hh
      · have h2 := by simpa using hh
        rw [h2]
      · simp at hh
  constructor
  · intro p hp q hq
    rw [hdata1 p hp, hdata2 q hq, hnteq]
  · intro p hp
    rw [hdata1 p hp]
    refine ⟨rfl, ?_⟩
    show some nt1 = (GetNoteText r1.zhtmlstring).toOption
    rw [hnt1]
    rfl

/-- C8 witness: two rows sharing the markup value but differing in title and
timestamps produce records with identical sanitized text. -/
theorem C8_witness :
    ∃ evs1 evs2, ParseZHTMLSTRINGRow rowDupA = Except.ok evs1 ∧
      ParseZHTMLSTRINGRow rowDupB = Except.ok evs2 ∧
      ∀ p ∈ evs1, ∀ q ∈ evs2, p.2.note_text = q.2.note_text := by
  obtain ⟨evs1, h1⟩ : ∃ evs, ParseZHTMLSTRINGRow rowDupA = Except.ok evs := ⟨_, rfl⟩
  obtain ⟨evs2, h2⟩ : ∃ evs, ParseZHTMLSTRINGRow rowDupB = Except.ok evs := ⟨_, rfl⟩
  exact ⟨evs1, evs2, h1, h2,
    (C8_sanitizer_deterministic rowDupA rowDupB evs1 evs2 h1 h2 rfl).1⟩
